import Mathlib

/-!
Verification development for the Text-to-PPT generator (`app.py`).

Strings are modelled as `List Char` (`Str`).  The components embedded here,
with the source lines they mirror:

* `clean_text`            — app.py lines 33-35, `re.sub(r'\*\*(.*?)\*\*', r'\1', text)`.
  Python's regex engine scans left to right; at each position it tries to
  match `**`, then a non-greedy inner span (`.` does not match a newline),
  then the nearest following `**`.  `findClose` is the non-greedy search for
  the closing marker, `subMatch` the attempt to match at the current
  position, and `cleanGo` the scan-and-substitute loop (fuelled by the
  input length so that it is structurally recursive and computable).
* `split_content_into_slides` — app.py lines 40-59.
* `create_presentation`   — app.py lines 62-104 (deck structure only; the
  pptx serialization itself is I/O and is not part of any claim's content).
-/

abbrev Str := List Char

/-- Non-greedy search for the closing `**` of the regex `\*\*(.*?)\*\*`:
returns the consumed inner span and the remainder after the closing `**`.
The inner `(.*?)` closes at the nearest following `**`; since Python's `.`
does not match `'\n'`, the search fails upon reaching a newline. -/
def findClose : Str → Option (Str × Str)
  | [] => none
  | [_] => none
  | c1 :: c2 :: t =>
    if c1 = '*' ∧ c2 = '*' then some ([], t)
    else if c1 = '\n' then none
    else (findClose (c2 :: t)).map (fun p => (c1 :: p.1, p.2))

/-- Attempt the regex `\*\*(.*?)\*\*` at the current position: an opening
`**` followed by a non-greedy inner span and a closing `**`. -/
def subMatch : Str → Option (Str × Str)
  | c1 :: c2 :: t => if c1 = '*' ∧ c2 = '*' then findClose t else none
  | _ => none

/-- The `re.sub` scan loop: at each position, replace a match by its inner
group and continue after it, else copy one character and move on.  The fuel
argument only makes the recursion structural; it is irrelevant as long as
it dominates the input length (`cleanGo_fuel`). -/
def cleanGo : Nat → Str → Str
  | 0, s => s
  | _ + 1, [] => []
  | fuel + 1, c :: t =>
    match subMatch (c :: t) with
    | some (inner, rest) => inner ++ cleanGo fuel rest
    | none => c :: cleanGo fuel t

/-- app.py lines 33-35: `re.sub(r'\*\*(.*?)\*\*', r'\1', text)`. -/
def clean_text (s : Str) : Str := cleanGo s.length s

-- ### Basic equations for `findClose`, `subMatch`, `cleanGo`

theorem findClose_nil : findClose [] = none := rfl

theorem findClose_one (c : Char) : findClose [c] = none := rfl

theorem findClose_ss (t : Str) : findClose ('*' :: '*' :: t) = some ([], t) := by
  simp [findClose]

theorem findClose_cons (c1 c2 : Char) (t : Str) (h1 : ¬(c1 = '*' ∧ c2 = '*'))
    (h2 : c1 ≠ '\n') :
    findClose (c1 :: c2 :: t) = (findClose (c2 :: t)).map (fun p => (c1 :: p.1, p.2)) := by
  simp only [findClose, if_neg h1, if_neg h2]

theorem findClose_nl (t : Str) : findClose ('\n' :: t) = none := by
  cases t with
  | nil => rfl
  | cons c2 t =>
    have h1 : ¬('\n' = '*' ∧ c2 = '*') := by
      intro h
      exact absurd h.1 (by decide)
    simp [findClose, if_neg h1]

theorem subMatch_nil : subMatch [] = none := rfl

theorem subMatch_one (c : Char) : subMatch [c] = none := rfl

theorem subMatch_cons (c1 c2 : Char) (t : Str) :
    subMatch (c1 :: c2 :: t) = if c1 = '*' ∧ c2 = '*' then findClose t else none := rfl

theorem subMatch_ss (t : Str) : subMatch ('*' :: '*' :: t) = findClose t := by
  simp [subMatch]

theorem subMatch_not_ss (c1 : Char) (t : Str)
    (h : ¬(c1 = '*' ∧ t.head? = some '*')) : subMatch (c1 :: t) = none := by
  cases t with
  | nil => rfl
  | cons c2 t =>
    have h1 : ¬(c1 = '*' ∧ c2 = '*') := by
      intro hc
      exact h ⟨hc.1, by simp [hc.2]⟩
    simp [subMatch_cons, if_neg h1]

/-- Structure of a successful closing search: the input is the inner span
followed by `**` and the remainder. -/
theorem findClose_decomp : ∀ {s i r : Str}, findClose s = some (i, r) →
    s = i ++ '*' :: '*' :: r := by
  intro s
  induction s with
  | nil => intro i r h; simp [findClose_nil] at h
  | cons c1 t ih =>
    intro i r h
    cases t with
    | nil => simp [findClose_one] at h
    | cons c2 t =>
      by_cases hss : c1 = '*' ∧ c2 = '*'
      · rw [hss.1, hss.2, findClose_ss] at h
        obtain ⟨h1, h2⟩ := Prod.mk.injEq .. ▸ (Option.some.injEq .. ▸ h)
        subst h1; subst h2
        simp [hss.1, hss.2]
      · by_cases hnl : c1 = '\n'
        · subst hnl; rw [findClose_nl] at h; exact absurd h (by simp)
        · rw [findClose_cons c1 c2 t hss hnl] at h
          cases hrec : findClose (c2 :: t) with
          | none => rw [hrec] at h; simp at h
          | some p =>
            rw [hrec] at h
            obtain ⟨i', r'⟩ := p
            simp only [Option.map_some'] at h
            obtain ⟨h1, h2⟩ := Prod.mk.injEq .. ▸ (Option.some.injEq .. ▸ h)
            subst h2
            have := ih hrec
            rw [← h1]
            simp [this]

/-- Structure of a successful match at the current position: an opening
`**`, the inner span, the closing `**`, and the remainder. -/
theorem subMatch_decomp {s i r : Str} (h : subMatch s = some (i, r)) :
    s = '*' :: '*' :: (i ++ '*' :: '*' :: r) := by
  cases s with
  | nil => simp [subMatch_nil] at h
  | cons c1 t =>
    cases t with
    | nil => simp [subMatch_one] at h
    | cons c2 t =>
      rw [subMatch_cons] at h
      by_cases hss : c1 = '*' ∧ c2 = '*'
      · rw [if_pos hss] at h
        rw [hss.1, hss.2, findClose_decomp h]
      · rw [if_neg hss] at h; simp at h

theorem subMatch_length {s i r : Str} (h : subMatch s = some (i, r)) :
    s.length = i.length + r.length + 4 := by
  have := subMatch_decomp h
  subst this
  simp
  omega

theorem cleanGo_nil (f : Nat) : cleanGo f [] = [] := by
  cases f <;> rfl

theorem cleanGo_succ (f : Nat) (c : Char) (t : Str) :
    cleanGo (f + 1) (c :: t) =
      match subMatch (c :: t) with
      | some (inner, rest) => inner ++ cleanGo f rest
      | none => c :: cleanGo f t := rfl

/-- The fuel is irrelevant as long as it dominates the input length. -/
theorem cleanGo_fuel : ∀ (f f' : Nat) (s : Str), s.length ≤ f → s.length ≤ f' →
    cleanGo f s = cleanGo f' s := by
  intro f
  induction f with
  | zero =>
    intro f' s hf _
    have : s = [] := List.length_eq_zero.mp (Nat.le_zero.mp hf)
    subst this
    rw [cleanGo_nil, cleanGo_nil]
  | succ f ih =>
    intro f' s hf hf'
    cases s with
    | nil => rw [cleanGo_nil, cleanGo_nil]
    | cons c t =>
      cases f' with
      | zero => simp at hf'
      | succ f' =>
        rw [cleanGo_succ, cleanGo_succ]
        cases h : subMatch (c :: t) with
        | some p =>
          obtain ⟨i, r⟩ := p
          have hlen := subMatch_length h
          simp only [List.length_cons] at hlen hf hf'
          have h1 : r.length ≤ f := by omega
          have h2 : r.length ≤ f' := by omega
          simp [ih f' r h1 h2]
        | none =>
          simp only [List.length_cons] at hf hf'
          simp [ih f' t (by omega) (by omega)]

theorem clean_text_nil : clean_text [] = [] := rfl

theorem clean_text_match {c : Char} {t i r : Str} (h : subMatch (c :: t) = some (i, r)) :
    clean_text (c :: t) = i ++ clean_text r := by
  have hlen := subMatch_length h
  simp only [List.length_cons] at hlen
  unfold clean_text
  simp only [List.length_cons]
  rw [cleanGo_succ, h]
  have : cleanGo t.length r = cleanGo r.length r :=
    cleanGo_fuel t.length r.length r (by omega) le_rfl
  dsimp only
  rw [this]

theorem clean_text_nomatch {c : Char} {t : Str} (h : subMatch (c :: t) = none) :
    clean_text (c :: t) = c :: clean_text t := by
  unfold clean_text
  simp only [List.length_cons]
  rw [cleanGo_succ, h]

-- ### Star-pair-freeness and properties of the inner span

/-- Predicate: `hasSS l = true` iff `l` contains two adjacent `'*'` characters. -/
def hasSS : Str → Bool
  | c1 :: c2 :: t => (c1 = '*' && c2 = '*') || hasSS (c2 :: t)
  | _ => false

theorem hasSS_nil : hasSS [] = false := rfl

theorem hasSS_one (c : Char) : hasSS [c] = false := rfl

theorem hasSS_cons2 (c1 c2 : Char) (t : Str) :
    hasSS (c1 :: c2 :: t) = ((c1 = '*' && c2 = '*') || hasSS (c2 :: t)) := rfl

theorem hasSS_tail {c : Char} {l : Str} (h : hasSS (c :: l) = false) :
    hasSS l = false := by
  cases l with
  | nil => rfl
  | cons d w =>
    rw [hasSS_cons2] at h
    exact (Bool.or_eq_false_iff.mp h).2

/-- The inner span of a successful closing search contains no `**`, does not
end in `'*'`, and contains no newline. -/
theorem findClose_inner : ∀ {s i r : Str}, findClose s = some (i, r) →
    hasSS i = false ∧ i.getLast? ≠ some '*' ∧ '\n' ∉ i := by
  intro s
  induction s with
  | nil => intro i r h; simp [findClose_nil] at h
  | cons c1 t ih =>
    intro i r h
    cases t with
    | nil => simp [findClose_one] at h
    | cons c2 t =>
      by_cases hss : c1 = '*' ∧ c2 = '*'
      · rw [hss.1, hss.2, findClose_ss] at h
        have hi : i = [] := by
          have := (Option.some.injEq .. ▸ h)
          exact (Prod.mk.injEq .. ▸ this).1.symm
        subst hi
        refine ⟨rfl, by simp, by simp⟩
      · by_cases hnl : c1 = '\n'
        · subst hnl; rw [findClose_nl] at h; simp at h
        · rw [findClose_cons c1 c2 t hss hnl] at h
          cases hrec : findClose (c2 :: t) with
          | none => rw [hrec] at h; simp at h
          | some p =>
            obtain ⟨i', r'⟩ := p
            rw [hrec] at h
            simp only [Option.map_some', Option.some.injEq, Prod.mk.injEq] at h
            obtain ⟨h1, h2⟩ := h
            obtain ⟨ihSS, ihLast, ihNl⟩ := ih hrec
            subst h2
            rw [← h1]
            constructor
            · cases i' with
              | nil => exact hasSS_one c1
              | cons d w =>
                have hd : c2 = d := by
                  have := findClose_decomp hrec
                  simpa using congrArg List.head? this
                rw [hasSS_cons2]
                apply Bool.or_eq_false_iff.mpr
                refine ⟨?_, ihSS⟩
                subst hd
                simp only [Bool.and_eq_false_iff]
                rcases Decidable.em (c1 = '*') with h1' | h1'
                · right
                  simp only [decide_eq_false_iff_not]
                  intro hc2
                  exact hss ⟨h1', hc2⟩
                · left; simp [h1']
            constructor
            · cases i' with
              | nil =>
                have hc2 : c2 = '*' := by
                  have := findClose_decomp hrec
                  simpa using congrArg List.head? this
                have hc1 : c1 ≠ '*' := fun hc => hss ⟨hc, hc2⟩
                simp [hc1]
              | cons d w =>
                rw [List.getLast?_cons_cons]
                exact ihLast
            · intro hmem
              rcases List.mem_cons.mp hmem with h | h
              · exact hnl h.symm
              · exact ihNl h

/-- Substitution cannot create a leading `'*'` out of nothing. -/
theorem clean_head {s : Str} (h : s.head? ≠ some '*') :
    (clean_text s).head? ≠ some '*' := by
  cases s with
  | nil => rw [clean_text_nil]; simp
  | cons c t =>
    have hc : c ≠ '*' := by
      intro hc; exact h (by simp [hc])
    cases hm : subMatch (c :: t) with
    | some p =>
      obtain ⟨i, r⟩ := p
      have := subMatch_decomp hm
      have : c = '*' := by simpa using congrArg List.head? this
      exact absurd this hc
    | none =>
      rw [clean_text_nomatch hm]
      simp [hc]

/-- A prefix that contains no `**` and whose junction with the remainder
forms no `**` is copied verbatim by the substitution. -/
theorem clean_copyLeft : ∀ (p x : Str), hasSS p = false →
    (p.getLast? = some '*' → x.head? ≠ some '*') →
    clean_text (p ++ x) = p ++ clean_text x := by
  intro p
  induction p with
  | nil => intro x _ _; simp
  | cons c p' ih =>
    intro x hSS hjunction
    have hnomatch : subMatch (c :: (p' ++ x)) = none := by
      apply subMatch_not_ss
      intro ⟨hc, hh⟩
      cases p' with
      | nil =>
        exact hjunction (by simp [hc]) (by simpa using hh)
      | cons d w =>
        have hd : d = '*' := by simpa using hh
        rw [hasSS_cons2, hc, hd] at hSS
        simp at hSS
    have hjunction' : p'.getLast? = some '*' → x.head? ≠ some '*' := by
      intro hlast hx
      cases p' with
      | nil => simp at hlast
      | cons d w =>
        exact hjunction (by rw [List.getLast?_cons_cons]; exact hlast) hx
    rw [List.cons_append, clean_text_nomatch hnomatch,
      ih x (hasSS_tail hSS) hjunction', List.cons_append]

/-- If `'*' :: v` has no reachable closing `**`, neither has `v`. -/
theorem findClose_star_tail {v : Str} (h : findClose ('*' :: v) = none) :
    findClose v = none := by
  cases v with
  | nil => rfl
  | cons f w =>
    by_cases hf : f = '*'
    · subst hf; rw [findClose_ss] at h; simp at h
    · have h1 : ¬('*' = '*' ∧ f = '*') := fun hc => hf hc.2
      rw [findClose_cons '*' f w h1 (by decide)] at h
      exact Option.map_eq_none'.mp h

/-- If `u` has no reachable closing `**`, there is no match at `'*' :: u`. -/
theorem subMatch_star_none {u : Str} (h : findClose u = none) :
    subMatch ('*' :: u) = none := by
  cases u with
  | nil => rfl
  | cons e v =>
    by_cases he : e = '*'
    · subst he
      rw [subMatch_cons, if_pos ⟨rfl, rfl⟩]
      exact findClose_star_tail h
    · rw [subMatch_cons, if_neg (fun hc => he hc.2)]

/-- Substitution cannot create a reachable closing `**`. -/
theorem findClose_clean_none : ∀ (u : Str), findClose u = none →
    findClose (clean_text u) = none := by
  intro u
  induction u with
  | nil => intro _; rw [clean_text_nil]; rfl
  | cons c1 rest ih =>
    intro h
    cases rest with
    | nil =>
      rw [clean_text_nomatch (subMatch_one c1), clean_text_nil]
      exact findClose_one c1
    | cons c2 t =>
      by_cases hss : c1 = '*' ∧ c2 = '*'
      · rw [hss.1, hss.2, findClose_ss] at h; simp at h
      · by_cases hnl : c1 = '\n'
        · subst hnl
          have hm : subMatch ('\n' :: c2 :: t) = none :=
            subMatch_not_ss '\n' (c2 :: t) (fun hc => absurd hc.1 (by decide))
          rw [clean_text_nomatch hm]
          exact findClose_nl _
        · have hfc : findClose (c2 :: t) = none := by
            rw [findClose_cons c1 c2 t hss hnl] at h
            exact Option.map_eq_none'.mp h
          have hm : subMatch (c1 :: c2 :: t) = none := by
            rw [subMatch_cons, if_neg hss]
          rw [clean_text_nomatch hm]
          cases hcl : clean_text (c2 :: t) with
          | nil => exact findClose_one c1
          | cons d w =>
            have hd : ¬(c1 = '*' ∧ d = '*') := by
              intro ⟨h1, h2⟩
              have hc2 : (c2 :: t).head? ≠ some '*' := by
                intro hh
                exact hss ⟨h1, by simpa using hh⟩
              have := clean_head hc2
              rw [hcl] at this
              exact this (by simp [h2])
            rw [findClose_cons c1 d w hd hnl]
            rw [← hcl]
            rw [ih hfc]
            rfl

/-- Idempotence of the substitution, fuelled by the input length. -/
theorem clean_text_fix : ∀ (n : Nat) (s : Str), s.length ≤ n →
    clean_text (clean_text s) = clean_text s := by
  intro n
  induction n with
  | zero =>
    intro s hs
    have : s = [] := List.length_eq_zero.mp (Nat.le_zero.mp hs)
    subst this
    rw [clean_text_nil, clean_text_nil]
  | succ n ih =>
    intro s hs
    cases s with
    | nil => rw [clean_text_nil, clean_text_nil]
    | cons c t =>
      cases h : subMatch (c :: t) with
      | some p =>
        obtain ⟨i, r⟩ := p
        rw [clean_text_match h]
        obtain ⟨hiSS, hiLast, _⟩ : hasSS i = false ∧ i.getLast? ≠ some '*' ∧ '\n' ∉ i := by
          cases t with
          | nil => simp [subMatch_one] at h
          | cons c2 t' =>
            rw [subMatch_cons] at h
            by_cases hss : c = '*' ∧ c2 = '*'
            · rw [if_pos hss] at h
              exact findClose_inner h
            · rw [if_neg hss] at h; simp at h
        rw [clean_copyLeft i (clean_text r) hiSS (fun hlast => absurd hlast hiLast)]
        have hlen := subMatch_length h
        simp only [List.length_cons] at hlen hs
        rw [ih r (by omega)]
      | none =>
        rw [clean_text_nomatch h]
        have hnone : subMatch (c :: clean_text t) = none := by
          cases t with
          | nil =>
            rw [clean_text_nil]
            exact subMatch_one c
          | cons c2 u =>
            by_cases hss : c = '*' ∧ c2 = '*'
            · obtain ⟨hc, hc2⟩ := hss
              subst hc; subst hc2
              rw [subMatch_cons, if_pos ⟨rfl, rfl⟩] at h
              rw [clean_text_nomatch (subMatch_star_none h)]
              rw [subMatch_ss]
              exact findClose_clean_none u h
            · by_cases hc : c = '*'
              · have hc2 : (c2 :: u).head? ≠ some '*' := by
                  intro hh
                  exact hss ⟨hc, by simpa using hh⟩
                exact subMatch_not_ss c _ (fun hx => clean_head hc2 hx.2)
              · exact subMatch_not_ss c _ (fun hx => hc hx.1)
        rw [clean_text_nomatch hnone]
        simp only [List.length_cons] at hs
        rw [ih t (by omega)]

/-- The characters of the substitution's output all come from the input. -/
theorem clean_subset : ∀ (n : Nat) (s : Str), s.length ≤ n →
    ∀ c ∈ clean_text s, c ∈ s := by
  intro n
  induction n with
  | zero =>
    intro s hs
    have : s = [] := List.length_eq_zero.mp (Nat.le_zero.mp hs)
    subst this
    rw [clean_text_nil]
    simp
  | succ n ih =>
    intro s hs c hc
    cases s with
    | nil => rw [clean_text_nil] at hc; simp at hc
    | cons a t =>
      cases h : subMatch (a :: t) with
      | some p =>
        obtain ⟨i, r⟩ := p
        rw [clean_text_match h] at hc
        have hdec := subMatch_decomp h
        have hlen := subMatch_length h
        simp only [List.length_cons] at hlen hs
        rcases List.mem_append.mp hc with hci | hcr
        · rw [hdec]; simp [hci]
        · have : c ∈ r := ih r (by omega) c hcr
          rw [hdec]; simp [this]
      | none =>
        rw [clean_text_nomatch h] at hc
        simp only [List.length_cons] at hs
        rcases List.mem_cons.mp hc with hca | hct
        · simp [hca]
        · exact List.mem_cons.mpr (Or.inr (ih t (by omega) c hct))

-- ## ContentPaginator (app.py lines 40-59)

/-- app.py line 40. -/
def MAX_BULLETS_PER_SLIDE : Nat := 6

/-- Python `content.split("\n")`: split on every newline; the empty string
splits to `[""]`. -/
def splitOnNl : Str → List Str
  | [] => [[]]
  | c :: t =>
    let r := splitOnNl t
    if c = '\n' then [] :: r
    else (c :: r.headI) :: r.tail

/-- Python `"\n".join(lines)`. -/
def joinNl : List Str → Str
  | [] => []
  | [l] => l
  | l :: ls => l ++ '\n' :: joinNl ls

/-- The loop of app.py lines 46-57, with the chunks kept as line lists
(joined only on emission, see `splitLoop`): each line is sanitized, then
appended to the current chunk if it holds fewer than
`MAX_BULLETS_PER_SLIDE` lines, else the current chunk is emitted and a new
one starts with the line; a non-empty trailing chunk is flushed. -/
def chunkLoop : List Str → List Str → List (List Str)
  | [], current => if current = [] then [] else [current]
  | p :: ps, current =>
    let q := clean_text p
    if current.length < MAX_BULLETS_PER_SLIDE then chunkLoop ps (current ++ [q])
    else current :: chunkLoop ps [q]

/-- app.py lines 46-57: as `chunkLoop`, emitting each chunk joined with
newlines (`"\n".join(current_slide)`). -/
def splitLoop : List Str → List Str → List Str
  | [], current => if current = [] then [] else [joinNl current]
  | p :: ps, current =>
    let q := clean_text p
    if current.length < MAX_BULLETS_PER_SLIDE then splitLoop ps (current ++ [q])
    else joinNl current :: splitLoop ps [q]

/-- app.py lines 42-59: `split_content_into_slides`. -/
def split_content_into_slides (content : Str) : List Str :=
  splitLoop (splitOnNl content) []

theorem splitLoop_eq_chunkLoop : ∀ (ps cur : List Str),
    splitLoop ps cur = (chunkLoop ps cur).map joinNl := by
  intro ps
  induction ps with
  | nil =>
    intro cur
    by_cases h : cur = [] <;> simp [splitLoop, chunkLoop, h]
  | cons p ps ih =>
    intro cur
    by_cases h : cur.length < MAX_BULLETS_PER_SLIDE <;>
      simp [splitLoop, chunkLoop, h, ih]

theorem splitOnNl_ne_nil : ∀ (s : Str), splitOnNl s ≠ [] := by
  intro s
  cases s with
  | nil => simp [splitOnNl]
  | cons c t =>
    by_cases h : c = '\n' <;> simp [splitOnNl, h]

/-- Every line produced by splitting on newlines is newline-free. -/
theorem splitOnNl_nl_free : ∀ (s : Str), ∀ l ∈ splitOnNl s, '\n' ∉ l := by
  intro s
  induction s with
  | nil =>
    intro l hl
    simp [splitOnNl] at hl
    simp [hl]
  | cons c t ih =>
    intro l hl
    by_cases h : c = '\n'
    · rw [splitOnNl, if_pos h] at hl
      rcases List.mem_cons.mp hl with h1 | h1
      · simp [h1]
      · exact ih l h1
    · rw [splitOnNl, if_neg h] at hl
      rcases List.mem_cons.mp hl with h1 | h1
      · subst h1
        intro hmem
        rcases List.mem_cons.mp hmem with h2 | h2
        · exact h h2.symm
        · cases hsp : splitOnNl t with
          | nil => exact splitOnNl_ne_nil t hsp
          | cons x xs =>
            rw [hsp] at h2
            exact ih x (by simp [hsp]) (by simpa [hsp] using h2)
      · cases hsp : splitOnNl t with
        | nil => exact absurd hsp (splitOnNl_ne_nil t)
        | cons x xs =>
          rw [hsp] at h1
          exact ih l (by simp [hsp, List.mem_cons.mp, h1]; right; exact h1)

/-- Splitting a newline-free string yields that single line. -/
theorem splitOnNl_no_nl : ∀ (x : Str), '\n' ∉ x → splitOnNl x = [x] := by
  intro x
  induction x with
  | nil => intro _; rfl
  | cons c t ih =>
    intro h
    have hc : c ≠ '\n' := fun hc => h (by simp [hc])
    rw [splitOnNl, if_neg hc, ih (fun hm => h (List.mem_cons.mpr (Or.inr hm)))]
    rfl

theorem splitOnNl_append_nl : ∀ (x z : Str), '\n' ∉ x →
    splitOnNl (x ++ '\n' :: z) = x :: splitOnNl z := by
  intro x
  induction x with
  | nil => intro z _; simp [splitOnNl]
  | cons c t ih =>
    intro z h
    have hc : c ≠ '\n' := fun hc => h (by simp [hc])
    rw [List.cons_append, splitOnNl, if_neg hc,
      ih z (fun hm => h (List.mem_cons.mpr (Or.inr hm)))]
    rfl

theorem joinNl_cons2 (l l2 : Str) (ls : List Str) :
    joinNl (l :: l2 :: ls) = l ++ '\n' :: joinNl (l2 :: ls) := rfl

theorem joinNl_append : ∀ (a b : List Str), a ≠ [] → b ≠ [] →
    joinNl (a ++ b) = joinNl a ++ '\n' :: joinNl b := by
  intro a
  induction a with
  | nil => intro b h _; exact absurd rfl h
  | cons x a' ih =>
    intro b _ hb
    cases a' with
    | nil =>
      cases b with
      | nil => exact absurd rfl hb
      | cons y ys => simp [joinNl_cons2, joinNl]
    | cons x2 a'' =>
      rw [List.cons_append, List.cons_append, joinNl_cons2]
      rw [← List.cons_append, ih b (by simp) hb, joinNl_cons2]
      simp

/-- Splitting undoes joining for a non-empty list of newline-free lines. -/
theorem splitOnNl_joinNl : ∀ (L : List Str), (∀ l ∈ L, '\n' ∉ l) → L ≠ [] →
    splitOnNl (joinNl L) = L := by
  intro L
  induction L with
  | nil => intro _ h; exact absurd rfl h
  | cons x ls ih =>
    intro hfree _
    cases ls with
    | nil => exact splitOnNl_no_nl x (hfree x (by simp))
    | cons y ys =>
      rw [joinNl_cons2, splitOnNl_append_nl x _ (hfree x (by simp))]
      rw [ih (fun l hl => hfree l (by simp [hl])) (by simp)]

/-- The pagination loop partitions its input: flattening the chunks gives
the pending chunk followed by the sanitized lines, in order. -/
theorem chunkLoop_flatten : ∀ (ps cur : List Str),
    (chunkLoop ps cur).flatten = cur ++ ps.map clean_text := by
  intro ps
  induction ps with
  | nil =>
    intro cur
    by_cases h : cur = [] <;> simp [chunkLoop, h]
  | cons p ps ih =>
    intro cur
    by_cases h : cur.length < MAX_BULLETS_PER_SLIDE <;>
      simp [chunkLoop, h, ih]

theorem chunkLoop_ne_nil : ∀ (ps cur : List Str), cur ≠ [] →
    chunkLoop ps cur ≠ [] := by
  intro ps
  induction ps with
  | nil => intro cur h; simp [chunkLoop, h]
  | cons p ps ih =>
    intro cur h
    by_cases hlt : cur.length < MAX_BULLETS_PER_SLIDE
    · rw [chunkLoop, if_pos hlt]
      exact ih _ (by simp)
    · rw [chunkLoop, if_neg hlt]
      simp

/-- Every chunk emitted by the pagination loop is non-empty and holds at
most `MAX_BULLETS_PER_SLIDE` lines. -/
theorem chunkLoop_mem : ∀ (ps cur : List Str),
    cur.length ≤ MAX_BULLETS_PER_SLIDE →
    ∀ c ∈ chunkLoop ps cur, c ≠ [] ∧ c.length ≤ MAX_BULLETS_PER_SLIDE := by
  intro ps
  induction ps with
  | nil =>
    intro cur hcur c hc
    by_cases h : cur = []
    · rw [chunkLoop, if_pos h] at hc; simp at hc
    · rw [chunkLoop, if_neg h] at hc
      have : c = cur := by simpa using hc
      subst this
      exact ⟨h, hcur⟩
  | cons p ps ih =>
    intro cur hcur c hc
    by_cases hlt : cur.length < MAX_BULLETS_PER_SLIDE
    · rw [chunkLoop, if_pos hlt] at hc
      exact ih _ (by simp; omega) c hc
    · rw [chunkLoop, if_neg hlt] at hc
      rcases List.mem_cons.mp hc with h1 | h1
      · subst h1
        refine ⟨?_, hcur⟩
        intro hnil
        rw [hnil] at hlt
        exact hlt (by simp [MAX_BULLETS_PER_SLIDE])
      · exact ih _ (by simp [MAX_BULLETS_PER_SLIDE]) c h1

/-- Every chunk except the last holds exactly `MAX_BULLETS_PER_SLIDE`
lines. -/
theorem chunkLoop_dropLast : ∀ (ps cur : List Str),
    cur.length ≤ MAX_BULLETS_PER_SLIDE →
    ∀ c ∈ (chunkLoop ps cur).dropLast, c.length = MAX_BULLETS_PER_SLIDE := by
  intro ps
  induction ps with
  | nil =>
    intro cur _ c hc
    by_cases h : cur = []
    · rw [chunkLoop, if_pos h] at hc; simp at hc
    · rw [chunkLoop, if_neg h] at hc; simp at hc
  | cons p ps ih =>
    intro cur hcur c hc
    by_cases hlt : cur.length < MAX_BULLETS_PER_SLIDE
    · rw [chunkLoop, if_pos hlt] at hc
      exact ih _ (by simp; omega) c hc
    · rw [chunkLoop, if_neg hlt] at hc
      cases htl : chunkLoop ps [clean_text p] with
      | nil => exact absurd htl (chunkLoop_ne_nil ps _ (by simp))
      | cons x xs =>
        rw [htl] at hc
        rw [List.dropLast_cons₂] at hc
        rcases List.mem_cons.mp hc with h1 | h1
        · subst h1; omega
        · rw [← htl] at h1
          exact ih _ (by simp [MAX_BULLETS_PER_SLIDE]) c h1

-- ## DeckAssembler: `create_presentation` (app.py lines 62-104)

/-- app.py line 15: `TITLE_FONT_SIZE = Pt(30)` (sizes tracked in points). -/
def TITLE_FONT_SIZE : Nat := 30

/-- app.py line 16: `SLIDE_FONT_SIZE = Pt(16)`. -/
def SLIDE_FONT_SIZE : Nat := 16

/-- Python `str.strip()`: remove leading and trailing whitespace. -/
def pyStrip (s : Str) : Str :=
  ((s.dropWhile Char.isWhitespace).reverse.dropWhile Char.isWhitespace).reverse

/-- One body paragraph of a slide, with the attributes app.py touches
(lines 86-90 and 93-96). -/
structure Paragraph where
  text : Str
  fontSize : Option Nat
  spaceAfterPt : Option Nat
  level : Nat
  alignLeft : Bool
deriving DecidableEq

/-- One slide: its title text with the attributes app.py touches on the
title paragraph, and its body paragraphs. -/
structure Slide where
  title : Str
  titleFontSize : Option Nat
  titleBold : Bool
  body : List Paragraph
deriving DecidableEq

/-- app.py lines 78-91, one chunk, before the font-size passes: the heading
(line 79) and one left-aligned top-level bullet paragraph with 8pt
trailing space per non-blank stripped line (lines 84-90); no font size is
set yet. -/
def contentSlideBase (slide_title : Str) (first_slide : Bool) (content : Str) : Slide :=
  { title := if first_slide then slide_title else slide_title ++ (" (contd.)".data)
    titleFontSize := none
    titleBold := false
    body := (splitOnNl content).filterMap (fun bullet =>
      if pyStrip bullet = [] then none
      else some { text := pyStrip bullet, fontSize := none, spaceAfterPt := some 8,
                  level := 0, alignLeft := true }) }

/-- app.py line 92: set the slide title's font size to `TITLE_FONT_SIZE`. -/
def setTitleSize (s : Slide) : Slide := { s with titleFontSize := some TITLE_FONT_SIZE }

/-- app.py lines 93-96: for every shape of the slide with a text frame —
which includes the title placeholder — set every paragraph's font size to
`SLIDE_FONT_SIZE`.  This pass runs after line 92 and therefore overwrites
the size just set on the title. -/
def setAllParagraphSizes (s : Slide) : Slide :=
  { s with titleFontSize := some SLIDE_FONT_SIZE,
           body := s.body.map (fun p => { p with fontSize := some SLIDE_FONT_SIZE }) }

/-- app.py lines 77-96 for one chunk, in source order: build the slide,
apply line 92, then apply lines 93-96. -/
def mkContentSlide (slide_title : Str) (first_slide : Bool) (content : Str) : Slide :=
  setAllParagraphSizes (setTitleSize (contentSlideBase slide_title first_slide content))

/-- app.py lines 69-71: the Title Slide: topic upper-cased (line 70), bold
title paragraph (line 71), no body text, and no font size ever set. -/
def mkTitleSlide (topic : Str) : Slide :=
  { title := topic.map Char.toUpper, titleFontSize := none, titleBold := true, body := [] }

/-- app.py lines 74-98 for one (title, content) pair: paginate the content
and build one slide per chunk; `first_slide` is true exactly for the chunk
at index 0. -/
def sectionSlides (slide_title slide_content : Str) : List Slide :=
  (split_content_into_slides slide_content).enum.map
    (fun ic => mkContentSlide slide_title (ic.1 = 0) ic.2)

/-- app.py lines 62-99: the deck built by `create_presentation`: the Title
Slide, then the content slides of each pair of
`zip(slide_titles, slide_contents)` in order. -/
def create_presentation (topic : Str) (slide_titles slide_contents : List Str) : List Slide :=
  mkTitleSlide topic ::
    (slide_titles.zip slide_contents).flatMap (fun tc => sectionSlides tc.1 tc.2)

/-- Python `str.replace(old, new)` restricted to single-character
arguments, as used on app.py line 102. -/
def pyReplaceChar (old new : Char) (s : Str) : Str :=
  s.map (fun c => if c = old then new else c)

/-- Python posix `os.path.join(a, b)` for two components: an absolute
second component (leading `'/'`) discards the first; otherwise a separator
is inserted unless the first component is empty or already ends in one. -/
def posixJoin (a b : Str) : Str :=
  if b.head? = some '/' then b
  else if a = [] ∨ a.getLast? = some '/' then a ++ b
  else a ++ '/' :: b

/-- app.py lines 100-103: the output path
`os.path.join("generated_ppt", f"{topic.replace(' ', '_')}_presentation.pptx")`.
The `os.makedirs` call is a filesystem side effect with no bearing on the
returned path. -/
def ppt_filename (topic : Str) : Str :=
  posixJoin ("generated_ppt".data)
    (pyReplaceChar ' ' '_' topic ++ ("_presentation.pptx".data))

-- ## Supporting lemmas on the assembled deck

theorem mkContentSlide_title (st : Str) (b : Bool) (c : Str) :
    (mkContentSlide st b c).title = if b then st else st ++ (" (contd.)".data) := rfl

theorem mkContentSlide_titleFontSize (st : Str) (b : Bool) (c : Str) :
    (mkContentSlide st b c).titleFontSize = some SLIDE_FONT_SIZE := rfl

theorem sectionSlides_length (st sc : Str) :
    (sectionSlides st sc).length = (split_content_into_slides sc).length := by
  simp [sectionSlides]

/-- Every slide of a section group is a content slide built by
`mkContentSlide`, hence carries the overwritten title font size. -/
theorem mem_sectionSlides_titleFontSize {st sc : Str} {s : Slide}
    (h : s ∈ sectionSlides st sc) : s.titleFontSize = some SLIDE_FONT_SIZE := by
  obtain ⟨ic, _, rfl⟩ := List.mem_map.mp h
  rfl

theorem create_presentation_length (topic : Str) (ts cs : List Str) :
    (create_presentation topic ts cs).length =
      1 + ((ts.zip cs).map
        (fun tc => (split_content_into_slides tc.2).length)).sum := by
  rw [create_presentation]
  simp only [List.length_cons, List.length_flatMap]
  have hfun : (List.length ∘ fun tc : Str × Str => sectionSlides tc.1 tc.2)
      = fun tc : Str × Str => (split_content_into_slides tc.2).length := by
    funext tc
    simp [sectionSlides]
  rw [hfun]
  omega

theorem zip_take_min {α β : Type} : ∀ (ts : List α) (cs : List β),
    ts.zip cs = (ts.take (min ts.length cs.length)).zip
      (cs.take (min ts.length cs.length)) := by
  intro ts
  induction ts with
  | nil => intro cs; simp
  | cons t ts ih =>
    intro cs
    cases cs with
    | nil => simp
    | cons c cs =>
      simp only [List.length_cons, Nat.succ_min_succ, List.take_succ_cons,
        List.zip_cons_cons]
      rw [← ih cs]

/-- Joining the per-chunk joins equals joining all lines at once, for
non-empty chunks. -/
theorem joinNl_map_joinNl : ∀ (gs : List (List Str)), (∀ g ∈ gs, g ≠ []) →
    joinNl (gs.map joinNl) = joinNl gs.flatten := by
  intro gs
  induction gs with
  | nil => intro _; rfl
  | cons g gs ih =>
    intro hne
    cases gs with
    | nil => simp [joinNl]
    | cons g2 gs' =>
      have hflat : (g2 :: gs').flatten ≠ [] := by
        have hg2 : g2 ≠ [] := hne g2 (by simp)
        cases g2 with
        | nil => exact absurd rfl hg2
        | cons x xs => simp
      rw [List.map_cons, List.map_cons, joinNl_cons2, List.flatten_cons]
      rw [← List.map_cons, ih (fun a ha => hne a (by simp [ha]))]
      rw [joinNl_append g _ (hne g (by simp)) hflat]

/-- Every line inside any chunk of the pagination of `content` is
newline-free. -/
theorem chunk_lines_nl_free (content : Str) :
    ∀ c ∈ chunkLoop (splitOnNl content) [], ∀ l ∈ c, '\n' ∉ l := by
  intro c hc l hl
  have hflat : l ∈ (chunkLoop (splitOnNl content) []).flatten :=
    List.mem_flatten.mpr ⟨c, hc, hl⟩
  rw [chunkLoop_flatten, List.nil_append] at hflat
  obtain ⟨p, hp, rfl⟩ := List.mem_map.mp hflat
  intro hnl
  exact splitOnNl_nl_free content p hp
    (clean_subset p.length p le_rfl '\n' hnl)

/-- Splitting a joined chunk recovers its lines. -/
theorem chunk_join_split (content : Str) :
    ∀ c ∈ chunkLoop (splitOnNl content) [], splitOnNl (joinNl c) = c := by
  intro c hc
  exact splitOnNl_joinNl c (chunk_lines_nl_free content c hc)
    (chunkLoop_mem (splitOnNl content) [] (by simp [MAX_BULLETS_PER_SLIDE]) c hc).1

-- ## A declarative reading of the sanitizer's contract

/-- Predicate: `Matches s` holds when `s` contains a `**`-wrapped span whose inner
content does not cross a newline — exactly when the substitution finds
something to rewrite. -/
def Matches (s : Str) : Prop :=
  ∃ a i b : Str, s = a ++ '*' :: '*' :: (i ++ '*' :: '*' :: b) ∧ '\n' ∉ i

/-- On inputs with no such span, the substitution is the identity. -/
theorem noMatch_clean : ∀ (s : Str), ¬ Matches s → clean_text s = s := by
  intro s
  induction s with
  | nil => intro _; exact clean_text_nil
  | cons c t ih =>
    intro h
    cases hm : subMatch (c :: t) with
    | some p =>
      obtain ⟨i, r⟩ := p
      exfalso
      have hdec := subMatch_decomp hm
      have hnl : '\n' ∉ i := by
        cases t with
        | nil => simp [subMatch_one] at hm
        | cons c2 t' =>
          rw [subMatch_cons] at hm
          by_cases hss : c = '*' ∧ c2 = '*'
          · rw [if_pos hss] at hm
            exact (findClose_inner hm).2.2
          · rw [if_neg hss] at hm; simp at hm
      exact h ⟨[], i, r, by simpa using hdec, hnl⟩
    | none =>
      rw [clean_text_nomatch hm]
      have ht : ¬ Matches t := by
        intro ⟨a, i, b, heq, hnl⟩
        exact h ⟨c :: a, i, b, by simp [heq], hnl⟩
      rw [ih ht]

/-- The non-greedy closing search succeeds exactly at the end of a span
that contains no `**`, does not end in `'*'`, and crosses no newline. -/
theorem findClose_free : ∀ (i r : Str), hasSS i = false →
    i.getLast? ≠ some '*' → '\n' ∉ i →
    findClose (i ++ '*' :: '*' :: r) = some (i, r) := by
  intro i
  induction i with
  | nil => intro r _ _ _; exact findClose_ss r
  | cons c i' ih =>
    intro r hSS hlast hnl
    have hc : c ≠ '\n' := fun h => hnl (by simp [h])
    cases i' with
    | nil =>
      have hcs : c ≠ '*' := by
        intro h
        exact hlast (by simp [h])
      have h1 : ¬(c = '*' ∧ '*' = '*') := fun hx => hcs hx.1
      rw [List.cons_append, List.nil_append, findClose_cons c '*' ('*' :: r) h1 hc,
        findClose_ss]
      rfl
    | cons d w =>
      have h1 : ¬(c = '*' ∧ d = '*') := by
        intro hx
        rw [hasSS_cons2, hx.1, hx.2] at hSS
        simp at hSS
      rw [List.cons_append, List.cons_append, findClose_cons c d _ h1 hc, ← List.cons_append]
      rw [ih r (hasSS_tail hSS) (by rw [List.getLast?_cons_cons] at hlast; exact hlast)
        (fun hm => hnl (by simp [hm]))]
      rfl

-- ## The claims

theorem flatMap_splitOnNl_of : ∀ (gs : List (List Str)),
    (∀ c ∈ gs, splitOnNl (joinNl c) = c) →
    ((gs.map joinNl).flatMap splitOnNl) = gs.flatten := by
  intro gs
  induction gs with
  | nil => intro _; rfl
  | cons g gs ih =>
    intro h
    rw [List.map_cons, List.flatMap_cons, List.flatten_cons,
      h g (by simp), ih (fun c hc => h c (by simp [hc]))]

/-- C5 — `clean_text` is idempotent: for every input string `x`,
`clean_text (clean_text x) = clean_text x`. -/
theorem C5_clean_text_idempotent (x : Str) :
    clean_text (clean_text x) = clean_text x :=
  clean_text_fix x.length x le_rfl

/-- C6 counterexample — the claim predicts that in `"**a\nb**"` the opening
`**` closes at the nearest following `**`, producing `"a\nb"`; but Python's
`.` does not match a newline, so `clean_text` leaves the string unchanged. -/
theorem C6_counterexample :
    clean_text ("**a\nb**".data) = ("**a\nb**".data) ∧
    clean_text ("**a\nb**".data) ≠ ("a\nb".data) := by
  constructor
  · decide
  · decide

/-- C6 (amended) — `clean_text` replaces each minimally-spanning
`**`-wrapped substring whose inner content crosses no newline by that inner
content, leaves inputs without such a span (unmatched markers included)
unchanged, and in particular maps `"**Speed**: improves throughput"` to
`"Speed: improves throughput"` and `""` to `""`. -/
theorem C6_clean_text_spec :
    (∀ s : Str, ¬ Matches s → clean_text s = s) ∧
    (∀ p i r : Str, hasSS p = false → p.getLast? ≠ some '*' →
      hasSS i = false → i.getLast? ≠ some '*' → '\n' ∉ i →
      clean_text (p ++ '*' :: '*' :: (i ++ '*' :: '*' :: r)) =
        p ++ (i ++ clean_text r)) ∧
    clean_text ("**Speed**: improves throughput".data) =
      ("Speed: improves throughput".data) ∧
    clean_text [] = [] := by
  refine ⟨noMatch_clean, ?_, by decide, rfl⟩
  intro p i r hpSS hplast hiSS hilast hinl
  rw [clean_copyLeft p _ hpSS ?junction]
  case junction =>
    intro hlast
    exact absurd hlast hplast
  have hm : subMatch ('*' :: '*' :: (i ++ '*' :: '*' :: r)) = some (i, r) := by
    rw [subMatch_ss]
    exact findClose_free i r hiSS hilast hinl
  rw [clean_text_match hm]

/-- C6 witness — the amended statement applied at concrete inputs:
`"x**b**"` rewrites to `"xb"`, and `"ab"` (no marker pair) is unchanged. -/
theorem C6_clean_text_spec_witness :
    clean_text ("x**b**".data) = ("xb".data) ∧
    clean_text ("ab".data) = ("ab".data) := by
  constructor
  · have h := C6_clean_text_spec.2.1 ("x".data) ("b".data) []
      (by decide) (by decide) (by decide) (by decide) (by decide)
    have h2 : ("x".data : Str) ++ '*' :: '*' :: (("b".data : Str) ++ '*' :: '*' :: []) =
        ("x**b**".data) := by decide
    rw [h2, clean_text_nil] at h
    rw [h]
    decide
  · apply C6_clean_text_spec.1
    intro ⟨a, i, b, heq, _⟩
    have := congrArg List.length heq
    simp at this
    omega

/-- C3 — pagination is a lossless, order-preserving partition: joining the
chunks of `split_content_into_slides` with newline reproduces the joined
sanitized lines of the input, and the chunks' line sequences concatenate to
exactly the sanitized lines, in input order. -/
theorem C3_lossless_partition (content : Str) :
    joinNl (split_content_into_slides content) =
      joinNl ((splitOnNl content).map clean_text) ∧
    (split_content_into_slides content).flatMap splitOnNl =
      (splitOnNl content).map clean_text := by
  have hsplit : split_content_into_slides content =
      (chunkLoop (splitOnNl content) []).map joinNl :=
    splitLoop_eq_chunkLoop (splitOnNl content) []
  have hflat := chunkLoop_flatten (splitOnNl content) []
  rw [List.nil_append] at hflat
  have hne : ∀ g ∈ chunkLoop (splitOnNl content) [], g ≠ [] :=
    fun g hg =>
      (chunkLoop_mem (splitOnNl content) [] (by simp [MAX_BULLETS_PER_SLIDE]) g hg).1
  constructor
  · rw [hsplit, joinNl_map_joinNl _ hne, hflat]
  · rw [hsplit, flatMap_splitOnNl_of _ (chunk_join_split content), hflat]

/-- C4 — every chunk of `split_content_into_slides` holds at most 6 lines,
every chunk but the last holds exactly 6, and a 14-line input yields chunks
of sizes 6, 6 and 2. -/
theorem C4_chunk_bounds :
    (∀ (content : Str), ∀ chunk ∈ split_content_into_slides content,
      (splitOnNl chunk).length ≤ MAX_BULLETS_PER_SLIDE) ∧
    (∀ (content : Str), ∀ chunk ∈ (split_content_into_slides content).dropLast,
      (splitOnNl chunk).length = MAX_BULLETS_PER_SLIDE) ∧
    (split_content_into_slides ("a\nb\nc\nd\ne\nf\ng\nh\ni\nj\nk\nl\nm\nn".data)).map
      (fun chunk => (splitOnNl chunk).length) = [6, 6, 2] := by
  refine ⟨?_, ?_, by decide⟩
  · intro content chunk hchunk
    rw [split_content_into_slides, splitLoop_eq_chunkLoop] at hchunk
    obtain ⟨c, hc, rfl⟩ := List.mem_map.mp hchunk
    rw [chunk_join_split content c hc]
    exact (chunkLoop_mem (splitOnNl content) []
      (by simp [MAX_BULLETS_PER_SLIDE]) c hc).2
  · intro content chunk hchunk
    rw [split_content_into_slides, splitLoop_eq_chunkLoop,
      ← List.map_dropLast] at hchunk
    obtain ⟨c, hcdl, rfl⟩ := List.mem_map.mp hchunk
    rw [chunk_join_split content c (List.dropLast_subset _ hcdl)]
    exact chunkLoop_dropLast (splitOnNl content) []
      (by simp [MAX_BULLETS_PER_SLIDE]) c hcdl

/-- C4 witness — the bounds applied to a concrete chunk of a concrete
7-line input: the first chunk has exactly 6 lines. -/
theorem C4_chunk_bounds_witness :
    (splitOnNl ("a\nb\nc\nd\ne\nf".data)).length ≤ MAX_BULLETS_PER_SLIDE ∧
    (splitOnNl ("a\nb\nc\nd\ne\nf".data)).length = MAX_BULLETS_PER_SLIDE :=
  ⟨C4_chunk_bounds.1 ("a\nb\nc\nd\ne\nf\ng".data) ("a\nb\nc\nd\ne\nf".data) (by decide),
   C4_chunk_bounds.2.1 ("a\nb\nc\nd\ne\nf\ng".data) ("a\nb\nc\nd\ne\nf".data) (by decide)⟩

/-- C9 — for a section paginating into at least two chunks, the slide built
from chunk 0 carries the section title verbatim and every later chunk's
slide carries the title suffixed with " (contd.)". -/
theorem C9_continuation_titles (st sc : Str) (i : Nat)
    (_hk : 2 ≤ (sectionSlides st sc).length)
    (h : i < (sectionSlides st sc).length) :
    ((sectionSlides st sc).get ⟨i, h⟩).title =
      if i = 0 then st else st ++ (" (contd.)".data) := by
  rw [List.get_eq_getElem]
  have h' : i < (split_content_into_slides sc).enum.length := by
    simpa [sectionSlides] using h
  simp only [sectionSlides, List.getElem_map, List.getElem_enum,
    mkContentSlide_title]
  by_cases h0 : i = 0 <;> simp [h0]

/-- C9 witness — a 7-line content paginates into two chunks; the second
slide of section "A" is titled "A (contd.)". -/
theorem C9_continuation_titles_witness :
    ((sectionSlides ("A".data) ("a\nb\nc\nd\ne\nf\ng".data)).get
      ⟨1, by decide⟩).title = ("A (contd.)".data) := by
  have h := C9_continuation_titles ("A".data) ("a\nb\nc\nd\ne\nf\ng".data) 1
    (by decide) (by decide)
  rw [if_neg (by decide : ¬(1 : Nat) = 0)] at h
  rw [h]
  decide

/-- C10 — the deck starts with the Title Slide, contains exactly one slide
equal to it, its size is one plus the per-section chunk counts in outline
order, and the "Rust Ownership" example with two 7-line sections yields the
5-slide deck with grouped, ordered titles and body sizes 6,1 per section. -/
theorem C10_deck_structure :
    (∀ (topic : Str) (ts cs : List Str),
      (create_presentation topic ts cs).head? = some (mkTitleSlide topic)) ∧
    (∀ (topic : Str) (ts cs : List Str),
      (create_presentation topic ts cs).countP (fun s => s = mkTitleSlide topic) = 1) ∧
    (∀ (topic : Str) (ts cs : List Str),
      (create_presentation topic ts cs).length =
        1 + ((ts.zip cs).map
          (fun tc => (split_content_into_slides tc.2).length)).sum) ∧
    (create_presentation ("Rust Ownership".data)
        [("Borrowing".data), ("Lifetimes".data)]
        [("a\nb\nc\nd\ne\nf\ng".data), ("a\nb\nc\nd\ne\nf\ng".data)]).map Slide.title =
      [("RUST OWNERSHIP".data), ("Borrowing".data), ("Borrowing (contd.)".data),
       ("Lifetimes".data), ("Lifetimes (contd.)".data)] ∧
    (create_presentation ("Rust Ownership".data)
        [("Borrowing".data), ("Lifetimes".data)]
        [("a\nb\nc\nd\ne\nf\ng".data), ("a\nb\nc\nd\ne\nf\ng".data)]).map
      (fun s => s.body.length) = [0, 6, 1, 6, 1] := by
  refine ⟨fun topic ts cs => rfl, ?_, create_presentation_length, by decide, by decide⟩
  intro topic ts cs
  rw [create_presentation, List.countP_cons]
  have h0 : ((ts.zip cs).flatMap
      (fun tc => sectionSlides tc.1 tc.2)).countP (fun s => s = mkTitleSlide topic) = 0 := by
    apply List.countP_eq_zero.mpr
    intro s hs
    obtain ⟨tc, _, hsec⟩ := List.mem_flatMap.mp hs
    have hfs := mem_sectionSlides_titleFontSize hsec
    simp only [decide_eq_true_eq]
    intro heq
    rw [heq] at hfs
    simp [mkTitleSlide] at hfs
  rw [h0]
  simp

/-- C7 — with titles and contents lists of different lengths, the deck is
the one built from both lists truncated to the shorter length: paired
iteration ignores the excess elements. -/
theorem C7_zip_truncation (topic : Str) (ts cs : List Str) :
    create_presentation topic ts cs =
      create_presentation topic (ts.take (min ts.length cs.length))
        (cs.take (min ts.length cs.length)) := by
  rw [create_presentation, create_presentation, ← zip_take_min]

/-- C1 — the code, evaluated at a failing input: the Title Slide's title
font size is never set, and the content slide's title is set to 30pt on
line 92 only to be overwritten to 16pt by the pass of lines 93-96, while
body paragraphs do get 16pt; the claimed 30pt titles do not survive. -/
theorem C1_title_font_size_bug :
    (create_presentation ("T".data) [("A".data)] [("x".data)]).map Slide.titleFontSize =
      [none, some SLIDE_FONT_SIZE] ∧
    (create_presentation ("T".data) [("A".data)] [("x".data)]).flatMap
      (fun s => s.body.map Paragraph.fontSize) = [some SLIDE_FONT_SIZE] ∧
    SLIDE_FONT_SIZE ≠ TITLE_FONT_SIZE := by decide

/-- C2 counterexample — one title with empty-string content: the claim
predicts a deck with zero content slides for that section (only the Title
Slide, 1 slide total), but the code emits a content slide, 2 slides
total. -/
theorem C2_counterexample :
    (create_presentation ("T".data) [("A".data)] [[]]).length = 2 ∧
    (create_presentation ("T".data) [("A".data)] [[]]).tail ≠ [] := by decide

/-- C2 (amended) — an empty titles list yields a deck with only the Title
Slide; a pair with empty-string content yields exactly one content slide
for that section, with an empty body (the empty string splits into one
empty line, forming one chunk whose blank line is skipped as a bullet). -/
theorem C2_degraded_inputs :
    (∀ (topic : Str) (cs : List Str),
      create_presentation topic [] cs = [mkTitleSlide topic]) ∧
    (∀ st : Str, sectionSlides st [] = [mkContentSlide st true []]) ∧
    (∀ st : Str, (mkContentSlide st true []).body = []) ∧
    (∀ (topic st : Str),
      create_presentation topic [st] [[]] =
        [mkTitleSlide topic, mkContentSlide st true []]) :=
  ⟨fun _ _ => rfl, fun _ => rfl, fun _ => rfl, fun _ _ => rfl⟩

theorem posixJoin_rel (a b : Str) (hb : b.head? ≠ some '/')
    (ha : ¬(a = [] ∨ a.getLast? = some '/')) : posixJoin a b = a ++ '/' :: b := by
  rw [posixJoin, if_neg hb, if_neg ha]

/-- C8 counterexample — two divergences from the claim: the code replaces
only the space character, so a tab (which is whitespace) survives into the
path unchanged; and a topic starting with `'/'` makes the derived filename
absolute, so `os.path.join` discards the output directory and the path
leaves "generated_ppt" entirely. -/
theorem C8_counterexample :
    ppt_filename ("A\tB".data) = ("generated_ppt/A\tB_presentation.pptx".data) ∧
    ppt_filename ("A\tB".data) ≠ ("generated_ppt/A_B_presentation.pptx".data) ∧
    Char.isWhitespace '\t' = true ∧
    ppt_filename ("/x".data) = ("/x_presentation.pptx".data) := by decide

/-- C8 (amended) — the output path is `os.path.join` of the fixed directory
"generated_ppt" with the topic, space characters (only) replaced by
underscores, plus the fixed suffix "_presentation.pptx": for a topic not
starting with `'/'` the path is "generated_ppt/" followed by that filename,
while a topic starting with `'/'` makes the filename absolute and the join
discards the directory; for topic "AI Ethics" the path ends in
"AI_Ethics_presentation.pptx". -/
theorem C8_filename :
    (∀ topic : Str, topic.head? ≠ some '/' →
      ppt_filename topic =
        ("generated_ppt/".data) ++
          (topic.map (fun c => if c = ' ' then '_' else c)) ++
          ("_presentation.pptx".data)) ∧
    (∀ topic : Str, topic.head? = some '/' →
      ppt_filename topic =
        (topic.map (fun c => if c = ' ' then '_' else c)) ++
          ("_presentation.pptx".data)) ∧
    ppt_filename ("AI Ethics".data) =
      ("generated_ppt/AI_Ethics_presentation.pptx".data) := by
  refine ⟨?_, ?_, by decide⟩
  · intro topic htopic
    have hb : (pyReplaceChar ' ' '_' topic ++ ("_presentation.pptx".data)).head? ≠
        some '/' := by
      cases topic with
      | nil => decide
      | cons c t =>
        simp only [pyReplaceChar, List.map_cons, List.cons_append, List.head?_cons,
          ne_eq, Option.some.injEq]
        intro hh
        by_cases hc : c = ' '
        · rw [if_pos hc] at hh
          exact absurd hh (by decide)
        · rw [if_neg hc] at hh
          exact htopic (by simp only [List.head?_cons, hh])
    unfold ppt_filename
    rw [posixJoin_rel ("generated_ppt".data) _ hb (by decide)]
    have hdir : ("generated_ppt/".data : Str) = ("generated_ppt".data : Str) ++ ['/'] := by
      decide
    rw [hdir]
    simp [pyReplaceChar, List.append_assoc]
  · intro topic htopic
    cases topic with
    | nil => simp at htopic
    | cons c t =>
      have hc : c = '/' := by simpa using htopic
      subst hc
      rfl

/-- C8 witness — the amended statement applied at concrete topics on both
sides of the split: "AI" stays inside the output directory while "/x"
escapes it. -/
theorem C8_filename_witness :
    ppt_filename ("AI".data) = ("generated_ppt/AI_presentation.pptx".data) ∧
    ppt_filename ("/x".data) = ("/x_presentation.pptx".data) := by
  constructor
  · have h := C8_filename.1 ("AI".data) (by decide)
    rw [h]
    decide
  · have h := C8_filename.2.1 ("/x".data) (by decide)
    rw [h]
    decide
